import Mathlib

/-!
Shallow embedding of the tiered bitmap allocator in src/mem.cc, for the
64-bit build: word width W = 64, B = 6, R = (1 << B) - 1 = 63.

A bitmap backed by an array of 64-bit words is modelled as a natural
number: word j of the backing array is base-2^64 digit j of the number,
so bit i of the array is testBit i of the number.  Pointers are modelled
as byte offsets from the payload base of the enclosing block.
-/

/-- Cell j of a bitmap: the j-th 64-bit word of the backing array. -/
def cell (bs j : ℕ) : ℕ := bs / 2 ^ (64 * j) % 2 ^ 64

/-- Bitset.set(i): or bit (i and R) into cell (i >> B), i.e. set bit i. -/
def bset (bs i : ℕ) : ℕ := bs ||| 2 ^ i

/-- Clearing every bit of mask m from bs: per-bit and-not, written as
xor of the common part so that it stays total on naturals. -/
def clearMask (bs m : ℕ) : ℕ := bs ^^^ (bs &&& m)

/-- Bitset.unset(i): clear bit (i and R) of cell (i >> B), i.e. clear bit i. -/
def bunset (bs i : ℕ) : ℕ := clearMask bs (2 ^ i)

/-- The find-msb intrinsic (63 - clz): index of the highest set bit of a
nonzero word. -/
def findMsb (x : ℕ) : ℕ := Nat.log2 x

/-- Fueled lowest-set-bit scan; fuel 64 covers any nonzero 64-bit word. -/
def findLsbAux : ℕ → ℕ → ℕ
  | 0, _ => 0
  | f + 1, x => if x % 2 = 1 then 0 else findLsbAux f (x / 2) + 1

/-- The find-lsb intrinsic (ffs - 1): index of the lowest set bit of a
nonzero word. -/
def findLsb (x : ℕ) : ℕ := findLsbAux 64 x

/-- Bitset.rfind scanning loop: do-while from cell m down to cell 0,
returning the msb of the first nonzero cell, or -1. -/
def rfindAux (bs : ℕ) : ℕ → ℤ
  | 0 => if cell bs 0 ≠ 0 then (findMsb (cell bs 0) : ℤ) else -1
  | m + 1 =>
    if cell bs (m + 1) ≠ 0 then ((findMsb (cell bs (m + 1)) + 64 * (m + 1) : ℕ) : ℤ)
    else rfindAux bs m

/-- Bitset.rfind(i): scan cells from index i >> B downward. -/
def rfind (bs i : ℕ) : ℤ := rfindAux bs (i / 64)

/-- State of the cursor-plus-two-bitmaps engine shared by SmallAlloc
(slot 16 B) and LargeAlloc (slot 4 KiB): owned-free bitmap bs,
foreign-free bitmap xbs, bump cursor cur (field _cur_bit). -/
structure SubState where
  bs : ℕ
  xbs : ℕ
  cur : ℕ
deriving DecidableEq

/-- SmallAlloc::BS_BITS = 1 << (g_sb_bits - 4). -/
def sa_BS_BITS : ℕ := 2 ^ (15 - 4)

/-- SmallAlloc::MAX_bIT = BS_BITS - ((SA_SIZE + (BS_BITS >> 2)) >> 4). -/
def sa_MAX_bIT : ℕ := sa_BS_BITS - ((64 + sa_BS_BITS / 4) / 16)

/-- LargeAlloc::BS_BITS = 1 << (g_lb_bits - 12). -/
def la_BS_BITS : ℕ := 2 ^ (21 - 12)

/-- LargeAlloc::MAX_bIT = BS_BITS - 1. -/
def la_MAX_bIT : ℕ := la_BS_BITS - 1

/-- SmallAlloc::alloc / LargeAlloc::alloc of n slot units; slot size is
2^shift bytes, capacity maxBit.  On success returns the byte offset
base-relative of the allocation (old cursor shifted) and sets bit cur. -/
def allocG (shift maxBit n : ℕ) (s : SubState) : Option ℕ × SubState :=
  if s.cur + n ≤ maxBit then
    (some (s.cur <<< shift), ⟨bset s.bs s.cur, s.xbs, s.cur + n⟩)
  else (none, s)

/-- SmallAlloc::free / LargeAlloc::free at slot index i = (p - base) /
slot_size: clear bit i of bs, rewind the cursor when the highest
remaining occupancy is below i, and report whether the cursor became 0. -/
def freeG (s : SubState) (i : ℕ) : Bool × SubState :=
  let bs' := bunset s.bs i
  let r := rfind bs' s.cur
  if r < (i : ℤ) then
    let cur' : ℕ := if 0 ≤ r then i else 0
    (decide (cur' = 0), ⟨bs', s.xbs, cur'⟩)
  else (false, ⟨bs', s.xbs, s.cur⟩)

/-- SmallAlloc::xfree / LargeAlloc::xfree at slot index i: atomic set of
bit i in the foreign-free bitmap. -/
def xfreeG (s : SubState) (i : ℕ) : SubState := ⟨s.bs, bset s.xbs i, s.cur⟩

/-- SmallAlloc::realloc / LargeAlloc::realloc in slot units: i is the
slot index of p, o the old and n the new unit count. -/
def reallocG (shift maxBit : ℕ) (s : SubState) (i o n : ℕ) : Option ℕ × SubState :=
  if s.cur = i + o ∧ i + n ≤ maxBit then
    (some (i <<< shift), ⟨s.bs, s.xbs, i + n⟩)
  else (none, s)

/-- One iteration of the try_hard_alloc drain loop at cell index k:
snapshot x of the xbs cell; when nonzero, clear those bits from xbs and
from bs, then compare bs.rfind(cur) with the lowest drained bit.
Returns the new state and whether the loop breaks. -/
def thaCell (k : ℕ) (s : SubState) : SubState × Bool :=
  let x := cell s.xbs k
  if x = 0 then (s, false)
  else
    let s1 : SubState := ⟨clearMask s.bs (x <<< (64 * k)), clearMask s.xbs (x <<< (64 * k)), s.cur⟩
    let lsb := findLsb x + 64 * k
    let r := rfind s1.bs s1.cur
    if (lsb : ℤ) ≤ r then (s1, true)
    else
      let cur' : ℕ := if 0 ≤ r then lsb else 0
      (⟨s1.bs, s1.xbs, cur'⟩, decide (cur' = 0))

/-- The try_hard_alloc drain loop, from cell k down to cell 0. -/
def thaLoop : ℕ → SubState → SubState
  | 0, s => (thaCell 0 s).1
  | k + 1, s =>
    let t := thaCell (k + 1) s
    if t.2 then t.1 else thaLoop k t.1

/-- SmallAlloc::try_hard_alloc / LargeAlloc::try_hard_alloc: drain xbs
cells from index cur >> B down to 0, then the inlined bump allocation. -/
def tryHardAllocG (shift maxBit n : ℕ) (s : SubState) : Option ℕ × SubState :=
  let s1 := thaLoop (s.cur / 64) s
  if s1.cur + n ≤ maxBit then
    (some (s1.cur <<< shift), ⟨bset s1.bs s1.cur, s1.xbs, s1.cur + n⟩)
  else (none, s1)

/-- HugeBlock::alloc / LargeBlock::alloc on the 63-bit occupancy word:
i = find_lsb of the 64-bit complement of bits; success exactly when
i < R = 63.  Returns the byte offset of the child unit, i << shift. -/
def blockAlloc (shift bits : ℕ) : Option ℕ × ℕ :=
  let i := findLsb ((2 ^ 64 - 1) ^^^ bits)
  if i < 63 then (some (i <<< shift), bset bits i) else (none, bits)

/-- HugeBlock::free / LargeBlock::free at child index i: clear the bit
and report whether the occupancy word is now zero. -/
def blockFree (bits i : ℕ) : Bool × ℕ :=
  let bits' := bunset bits i
  (decide (bits' = 0), bits')

/-- HugeBlock::alloc with its child unit size 2^g_lb_bits = 2 MiB. -/
def hbAlloc (bits : ℕ) : Option ℕ × ℕ := blockAlloc 21 bits

/-- LargeBlock::alloc with its child unit size 2^g_sb_bits = 32 KiB. -/
def lbAlloc (bits : ℕ) : Option ℕ × ℕ := blockAlloc 15 bits

/-- SmallAlloc::alloc: slot size 16 = 2^4 bytes, capacity sa_MAX_bIT. -/
def SmallAlloc.alloc (n : ℕ) (s : SubState) : Option ℕ × SubState := allocG 4 sa_MAX_bIT n s

/-- SmallAlloc::try_hard_alloc. -/
def SmallAlloc.try_hard_alloc (n : ℕ) (s : SubState) : Option ℕ × SubState :=
  tryHardAllocG 4 sa_MAX_bIT n s

/-- SmallAlloc::free at slot index i. -/
def SmallAlloc.free (s : SubState) (i : ℕ) : Bool × SubState := freeG s i

/-- SmallAlloc::xfree at slot index i. -/
def SmallAlloc.xfree (s : SubState) (i : ℕ) : SubState := xfreeG s i

/-- SmallAlloc::realloc in 16-byte slot units. -/
def SmallAlloc.realloc (s : SubState) (i o n : ℕ) : Option ℕ × SubState :=
  reallocG 4 sa_MAX_bIT s i o n

/-- LargeAlloc::alloc: slot size 4096 = 2^12 bytes, capacity la_MAX_bIT. -/
def LargeAlloc.alloc (n : ℕ) (s : SubState) : Option ℕ × SubState := allocG 12 la_MAX_bIT n s

/-- LargeAlloc::try_hard_alloc. -/
def LargeAlloc.try_hard_alloc (n : ℕ) (s : SubState) : Option ℕ × SubState :=
  tryHardAllocG 12 la_MAX_bIT n s

/-- LargeAlloc::free at slot index i. -/
def LargeAlloc.free (s : SubState) (i : ℕ) : Bool × SubState := freeG s i

/-- LargeAlloc::xfree at slot index i. -/
def LargeAlloc.xfree (s : SubState) (i : ℕ) : SubState := xfreeG s i

/-- LargeAlloc::realloc in 4096-byte slot units. -/
def LargeAlloc.realloc (s : SubState) (i o n : ℕ) : Option ℕ × SubState :=
  reallocG 12 la_MAX_bIT s i o n

/-- State of a freshly constructed SmallAlloc or LargeAlloc: both bitmaps
zeroed (the pages are freshly committed) and _cur_bit = 0. -/
def initSub : SubState := ⟨0, 0, 0⟩

/-- States of one SA or LA engine reachable from the fresh state through
completed owner operations, the try_hard_alloc slow path included.
Side conditions record what the front end guarantees at each call site:
requested unit counts are positive, freed and resized slots hold a live
object (their bs bit is set), and realloc only grows
(ThreadAlloc::realloc checks o < n before resizing). -/
inductive Reach (shift maxBit : ℕ) : SubState → Prop
  | init : Reach shift maxBit initSub
  | alloc (s : SubState) (n : ℕ) (h : Reach shift maxBit s) (hn : 1 ≤ n) :
      Reach shift maxBit (allocG shift maxBit n s).2
  | tryHard (s : SubState) (n : ℕ) (h : Reach shift maxBit s) (hn : 1 ≤ n) :
      Reach shift maxBit (tryHardAllocG shift maxBit n s).2
  | free (s : SubState) (i : ℕ) (h : Reach shift maxBit s)
      (hi : s.bs.testBit i = true) : Reach shift maxBit (freeG s i).2
  | xfree (s : SubState) (i : ℕ) (h : Reach shift maxBit s) :
      Reach shift maxBit (xfreeG s i)
  | realloc (s : SubState) (i o n : ℕ) (h : Reach shift maxBit s)
      (hi : s.bs.testBit i = true) (hon : o < n) :
      Reach shift maxBit (reallocG shift maxBit s i o n).2

/-- The amended cursor invariant: the cursor strictly bounds every set
bit of bs, and a cursor reset to 0 is forced when bs is empty. -/
def SubInv (s : SubState) : Prop :=
  (∀ j, s.bs.testBit j = true → j < s.cur) ∧ (s.bs = 0 → s.cur = 0)

/-- The cursor invariant exactly as the spec words it: cur_bit equals
one past the highest currently-set bit of bs, and 0 when bs is empty. -/
def OnePastHighest (s : SubState) : Prop :=
  (s.bs = 0 ∧ s.cur = 0) ∨
  ∃ h, s.bs.testBit h = true ∧ (∀ j, s.bs.testBit j = true → j ≤ h) ∧ s.cur = h + 1

/-- Run a sequence of allocations with the given unit counts, recording
the returned byte offsets; none when any allocation fails. -/
def allocMany (shift maxBit : ℕ) : SubState → List ℕ → Option (List ℕ × SubState)
  | s, [] => some ([], s)
  | s, u :: us =>
    match allocG shift maxBit u s with
    | (some p, s1) =>
      match allocMany shift maxBit s1 us with
      | some (ps, s2) => some (p :: ps, s2)
      | none => none
    | (none, _) => none

/-- Occupancy word of HugeBlock hb inside a shard list of
(identity, occupancy word) pairs. -/
def lookupBits (shard : List (ℕ × ℕ)) (hb : ℕ) : ℕ :=
  ((shard.find? (fun e => e.1 == hb)).getD (hb, 0)).2

/-- Result of GlobalAlloc::free: the shard list after the call, whether
the Large unit was decommitted, and whether the whole HugeBlock
reservation was released. -/
structure GFree where
  shard : List (ℕ × ℕ)
  decommitted : Bool
  released : Bool
deriving DecidableEq

/-- GlobalAlloc::free(p, hb, alloc_id): decommit the Large unit, then
under the shard mutex clear the unit's bit in hb and, when hb became
empty and is not the shard head, erase it and release its range.
The shard is the list of (HugeBlock identity, occupancy word) pairs in
list order, head first; i is the Large-unit index of p inside hb. -/
def GlobalAlloc.free (shard : List (ℕ × ℕ)) (hb i : ℕ) : GFree :=
  let bits' := bunset (lookupBits shard hb) i
  let isHead := decide ((shard.head?.map Prod.fst) = some hb)
  let r := decide (bits' = 0) && !isHead
  let shard' :=
    if r then shard.filter (fun e => e.1 != hb)
    else shard.map (fun e => if e.1 = hb then (hb, bits') else e)
  ⟨shard', true, r⟩

/-- The state ThreadAlloc::free touches on the small-tier path
(n <= 2048): the SmallAlloc that align_down recovers from p, together
with its owner id, this thread's SA and LB lists (identities, head =
current), the parent LargeBlock occupancy word and slot, the GlobalAlloc
shard of the parent HugeBlock, and a count of mutex acquisitions. -/
structure SmallWorld where
  owner : ℕ
  sa : SubState
  saId : ℕ
  saIsCur : Bool
  saList : List ℕ
  lbBits : ℕ
  lbId : ℕ
  lbIsCur : Bool
  lbList : List ℕ
  saSlot : ℕ
  shard : List (ℕ × ℕ)
  hbId : ℕ
  lbSlot : ℕ
  locks : ℕ
deriving DecidableEq

/-- ThreadAlloc::free, small tier, for a pointer at slot index i of the
recovered SmallAlloc, called by the thread with id self. -/
def threadFreeSmall (self i : ℕ) (w : SmallWorld) : SmallWorld :=
  if w.owner = self then
    let t := freeG w.sa i
    if t.1 && !w.saIsCur then
      let saList' := w.saList.filter (fun x => x != w.saId)
      let u := blockFree w.lbBits w.saSlot
      if u.1 && !w.lbIsCur then
        let lbList' := w.lbList.filter (fun x => x != w.lbId)
        let g := GlobalAlloc.free w.shard w.hbId w.lbSlot
        { w with sa := t.2, saList := saList', lbBits := u.2, lbList := lbList',
                 shard := g.shard, locks := w.locks + 1 }
      else
        { w with sa := t.2, saList := saList', lbBits := u.2 }
    else { w with sa := t.2 }
  else { w with sa := xfreeG w.sa i }

/-- The state ThreadAlloc::free touches on the large-tier path
(2048 < n <= 2^17): the LargeAlloc recovered from p, its owner id, this
thread's LA list, and the GlobalAlloc shard of the parent HugeBlock. -/
structure LargeWorld where
  owner : ℕ
  la : SubState
  laId : ℕ
  laIsCur : Bool
  laList : List ℕ
  shard : List (ℕ × ℕ)
  hbId : ℕ
  laSlot : ℕ
  locks : ℕ
deriving DecidableEq

/-- ThreadAlloc::free, large tier, for a pointer at slot index i of the
recovered LargeAlloc, called by the thread with id self. -/
def threadFreeLarge (self i : ℕ) (w : LargeWorld) : LargeWorld :=
  if w.owner = self then
    let t := freeG w.la i
    if t.1 && !w.laIsCur then
      let laList' := w.laList.filter (fun x => x != w.laId)
      let g := GlobalAlloc.free w.shard w.hbId w.laSlot
      { w with la := t.2, laList := laList', shard := g.shard, locks := w.locks + 1 }
    else { w with la := t.2 }
  else { w with la := xfreeG w.la i }

/-- The _try_alloc scan pattern: try f on up to m nodes of the list
(the nodes after the rotated-away head, in order), keeping each node's
updated state even on failure.  Returns the hit value and its position,
and the scanned segment after the calls. -/
def tryScanM {α β : Type} (f : α → Option β × α) : ℕ → List α → Option (β × ℕ) × List α
  | _, [] => (none, [])
  | 0, l => (none, l)
  | m + 1, a :: rest =>
    match f a with
    | (some b, a') => (some (b, 0), a' :: rest)
    | (none, a') =>
      match tryScanM f m rest with
      | (some (b, j), rest') => (some (b, j + 1), a' :: rest')
      | (none, rest') => (none, a' :: rest')

/-- GlobalAlloc::alloc on one shard, the shard being its list of
HugeBlock occupancy words in list order (head = x.hb): try the head,
else rotate the head back and scan up to 8 blocks promoting a hit to the
front, else reserve a fresh HugeBlock when the VM allows (its first
Large unit is carved at once, leaving word 1).  Returns success and the
shard afterwards. -/
def gallocAlloc (shard : List ℕ) (vmOk : Bool) : Bool × List ℕ :=
  match shard with
  | [] => if vmOk then (true, [1]) else (false, [])
  | h :: t =>
    match hbAlloc h with
    | (some _, h') => (true, h' :: t)
    | (none, _) =>
      match t with
      | [] => if vmOk then (true, [1, h]) else (false, [h])
      | _ :: _ =>
        match tryScanM hbAlloc 8 t with
        | (some (_, j), t') => (true, t'.getD j 0 :: (t' ++ [h]).eraseIdx j)
        | (none, t') => if vmOk then (true, 1 :: (t' ++ [h])) else (false, t' ++ [h])

/-- The thread-front-end state ThreadAlloc::alloc reads on the small
tier: the SA list (engine states, head = _sa), the LB list (occupancy
words, head = _lb), the GlobalAlloc shard for this thread, and whether a
VM reservation would succeed. -/
structure AWorld where
  sas : List SubState
  lbs : List ℕ
  shard : List ℕ
  vmOk : Bool
deriving DecidableEq

/-- god::align_up of n to a multiple of 16. -/
def alignUp16 (n : ℕ) : ℕ := (n + 15) / 16 * 16

/-- The small-tier unit count of ThreadAlloc::alloc:
u = n > 16 ? align_up(n, 16) >> 4 : 1. -/
def unitsSmall (n : ℕ) : ℕ := if 16 < n then alignUp16 n / 16 else 1

/-- ThreadAlloc::alloc small tier, final fallback: ask GlobalAlloc for a
fresh LargeBlock, push it to the front, carve a SmallAlloc from it
(always its Small unit 0), push that in front of the SA list and
allocate from it. -/
def threadAllocSmallNewLB (u : ℕ) (w : AWorld) : Option ℕ × AWorld :=
  let g := gallocAlloc w.shard w.vmOk
  if g.1 then
    match lbAlloc 0 with
    | (some _, b') =>
      let a := allocG 4 sa_MAX_bIT u initSub
      (a.1, { w with shard := g.2, lbs := b' :: w.lbs, sas := a.2 :: w.sas })
    | (none, _) => (none, { w with shard := g.2, lbs := 0 :: w.lbs })
  else (none, { w with shard := g.2 })

/-- ThreadAlloc::alloc small tier, LB-list scan: when the LB list has a
second node, rotate the head back and try up to 4 LargeBlocks to carve a
SmallAlloc; a hit is promoted to the front and the fresh SmallAlloc is
allocated from (the source does not push this SmallAlloc onto the SA
list).  Otherwise fall through to a fresh LargeBlock. -/
def threadAllocSmallLBScan (u : ℕ) (w : AWorld) : Option ℕ × AWorld :=
  match w.lbs with
  | b :: b2 :: rest =>
    match tryScanM lbAlloc 4 (b2 :: rest) with
    | (some (_, j), t') =>
      let a := allocG 4 sa_MAX_bIT u initSub
      (a.1, { w with lbs := t'.getD j 0 :: (t' ++ [b]).eraseIdx j })
    | (none, t') => threadAllocSmallNewLB u { w with lbs := t' ++ [b] }
  | _ => threadAllocSmallNewLB u w

/-- ThreadAlloc::alloc small tier, current-LB step: carve a fresh
SmallAlloc from the head LargeBlock, push it in front of the SA list and
allocate from it; else scan the LB list. -/
def threadAllocSmallLB (u : ℕ) (w : AWorld) : Option ℕ × AWorld :=
  match w.lbs with
  | b :: rest =>
    match lbAlloc b with
    | (some _, b') =>
      let a := allocG 4 sa_MAX_bIT u initSub
      (a.1, { w with lbs := b' :: rest, sas := a.2 :: w.sas })
    | (none, _) => threadAllocSmallLBScan u w
  | [] => threadAllocSmallLBScan u w

/-- ThreadAlloc::alloc small tier, SA-list scan: when the SA list has a
second node, rotate the head back and try up to 2 SmallAllocs via
try_hard_alloc, promoting a hit to the front; else go to the LB steps. -/
def threadAllocSmallScan (u : ℕ) (w : AWorld) : Option ℕ × AWorld :=
  match w.sas with
  | s :: s2 :: rest =>
    match tryScanM (fun a => tryHardAllocG 4 sa_MAX_bIT u a) 2 (s2 :: rest) with
    | (some (p, j), t') => (some p, { w with sas := t'.getD j initSub :: (t' ++ [s]).eraseIdx j })
    | (none, t') => threadAllocSmallLB u { w with sas := t' ++ [s] }
  | _ => threadAllocSmallLB u w

/-- ThreadAlloc::alloc small tier for u slot units: current-SA fast
path, then the SA scan, then the LB steps. -/
def threadAllocSmall (u : ℕ) (w : AWorld) : Option ℕ × AWorld :=
  match w.sas with
  | s :: rest =>
    match allocG 4 sa_MAX_bIT u s with
    | (some p, s') => (some p, { w with sas := s' :: rest })
    | (none, _) => threadAllocSmallScan u w
  | [] => threadAllocSmallScan u w

/-- ThreadAlloc::alloc for a byte size n <= 2048: route through the
small-tier unit count. -/
def threadAllocSmallBytes (n : ℕ) (w : AWorld) : Option ℕ × AWorld :=
  threadAllocSmall (unitsSmall n) w

/-! Bit-level lemmas about the embedded Bitset operations. -/

theorem testBit_clearMask (a m j : ℕ) :
    (clearMask a m).testBit j = (a.testBit j && !(m.testBit j)) := by
  simp only [clearMask, Nat.testBit_xor, Nat.testBit_and]
  cases a.testBit j <;> cases m.testBit j <;> rfl

theorem testBit_bset (a i j : ℕ) :
    (bset a i).testBit j = (a.testBit j || decide (i = j)) := by
  simp [bset, Nat.testBit_or, Nat.testBit_two_pow]

theorem testBit_bunset (a i j : ℕ) :
    (bunset a i).testBit j = (a.testBit j && !decide (i = j)) := by
  simp [bunset, testBit_clearMask, Nat.testBit_two_pow]

theorem testBit_div_pow (bs e k : ℕ) : (bs / 2 ^ e).testBit k = bs.testBit (e + k) := by
  rw [← Nat.shiftRight_eq_div_pow, Nat.testBit_shiftRight]

theorem testBit_cell {k : ℕ} (bs n : ℕ) (hk : k < 64) :
    (cell bs n).testBit k = bs.testBit (64 * n + k) := by
  simp only [cell]
  rw [Nat.testBit_mod_two_pow, testBit_div_pow]
  simp [hk]

theorem cell_lt (bs n : ℕ) : cell bs n < 2 ^ 64 :=
  Nat.mod_lt _ (by norm_num)

theorem testBit_cell_ge {k : ℕ} (bs n : ℕ) (hk : 64 ≤ k) : (cell bs n).testBit k = false :=
  Nat.testBit_lt_two_pow
    (lt_of_lt_of_le (cell_lt bs n) (Nat.pow_le_pow_right (by norm_num) hk))

theorem log2_testBit {x : ℕ} (hx : x ≠ 0) : x.testBit x.log2 = true := by
  have h1 := Nat.log2_self_le hx
  have h2 : x < 2 ^ (x.log2 + 1) := Nat.lt_log2_self
  have hdiv : x / 2 ^ x.log2 = 1 := by
    have hlo : 1 ≤ x / 2 ^ x.log2 :=
      (Nat.one_le_div_iff (Nat.two_pow_pos _)).2 h1
    have hhi : x / 2 ^ x.log2 < 2 := by
      rw [Nat.div_lt_iff_lt_mul (Nat.two_pow_pos _)]
      calc x < 2 ^ (x.log2 + 1) := h2
        _ = 2 * 2 ^ x.log2 := by ring
    omega
  rw [Nat.testBit_to_div_mod, hdiv]
  rfl

theorem log2_testBit_gt {x j : ℕ} (hj : x.log2 < j) : x.testBit j = false := by
  rcases eq_or_ne x 0 with rfl | hx
  · exact Nat.zero_testBit j
  · exact Nat.testBit_lt_two_pow
      (lt_of_lt_of_le Nat.lt_log2_self (Nat.pow_le_pow_right (by norm_num) hj))

theorem findLsbAux_spec : ∀ f x, x ≠ 0 → x < 2 ^ f →
    x.testBit (findLsbAux f x) = true ∧ ∀ j, j < findLsbAux f x → x.testBit j = false := by
  intro f
  induction f with
  | zero =>
    intro x hx hlt
    simp only [pow_zero] at hlt
    omega
  | succ f ih =>
    intro x hx hlt
    simp only [findLsbAux]
    by_cases h : x % 2 = 1
    · rw [if_pos h]
      refine ⟨by simp [Nat.testBit_zero, h], ?_⟩
      intro j hj
      omega
    · rw [if_neg h]
      have hx2 : x / 2 ≠ 0 := by omega
      have hlt2 : x / 2 < 2 ^ f := by
        rw [Nat.div_lt_iff_lt_mul (by norm_num : (0:ℕ) < 2)]
        calc x < 2 ^ (f + 1) := hlt
          _ = 2 ^ f * 2 := by ring
      obtain ⟨h1, h2⟩ := ih (x / 2) hx2 hlt2
      refine ⟨by rw [Nat.testBit_add_one]; exact h1, ?_⟩
      intro j hj
      cases j with
      | zero => simp [Nat.testBit_zero]; omega
      | succ j =>
        rw [Nat.testBit_add_one]
        exact h2 j (by omega)

theorem findLsb_spec {x : ℕ} (hx : x ≠ 0) (hlt : x < 2 ^ 64) :
    x.testBit (findLsb x) = true ∧ ∀ j, j < findLsb x → x.testBit j = false :=
  findLsbAux_spec 64 x hx hlt

theorem rfindAux_spec (bs : ℕ) : ∀ m,
    (rfindAux bs m = -1 ∧ ∀ j : ℕ, j < 64 * (m + 1) → bs.testBit j = false) ∨
    (∃ j : ℕ, rfindAux bs m = (j : ℤ) ∧ bs.testBit j = true ∧ j < 64 * (m + 1) ∧
      ∀ k : ℕ, j < k → k < 64 * (m + 1) → bs.testBit k = false) := by
  intro m
  induction m with
  | zero =>
    by_cases h : cell bs 0 ≠ 0
    · right
      have hl : (cell bs 0).log2 < 64 := by rw [Nat.log2_lt h]; exact cell_lt bs 0
      refine ⟨(cell bs 0).log2, ?_, ?_, by omega, ?_⟩
      · simp [rfindAux, h, findMsb]
      · have := log2_testBit h
        rw [testBit_cell bs 0 hl] at this
        simpa using this
      · intro k hk1 hk2
        have := log2_testBit_gt (x := cell bs 0) hk1
        rw [testBit_cell bs 0 hk2] at this
        simpa using this
    · left
      push_neg at h
      refine ⟨by simp [rfindAux, h], ?_⟩
      intro j hj
      have : (cell bs 0).testBit j = bs.testBit j := by
        have := testBit_cell (k := j) bs 0 (by omega)
        simpa using this
      rw [← this, h, Nat.zero_testBit]
  | succ m ih =>
    by_cases h : cell bs (m + 1) ≠ 0
    · right
      have hl : (cell bs (m + 1)).log2 < 64 := by rw [Nat.log2_lt h]; exact cell_lt bs (m + 1)
      refine ⟨(cell bs (m + 1)).log2 + 64 * (m + 1), ?_, ?_, by omega, ?_⟩
      · simp [rfindAux, h, findMsb]
      · have := log2_testBit h
        rw [testBit_cell bs (m + 1) hl] at this
        rw [Nat.add_comm] at this
        exact this
      · intro k hk1 hk2
        have hge : 64 * (m + 1) ≤ k := by omega
        have hk' : k - 64 * (m + 1) < 64 := by omega
        have := log2_testBit_gt (x := cell bs (m + 1)) (j := k - 64 * (m + 1)) (by omega)
        rw [testBit_cell bs (m + 1) hk'] at this
        rw [show 64 * (m + 1) + (k - 64 * (m + 1)) = k by omega] at this
        exact this
    · push_neg at h
      have hcell : ∀ j, 64 * (m + 1) ≤ j → j < 64 * (m + 2) → bs.testBit j = false := by
        intro j hj1 hj2
        have hk' : j - 64 * (m + 1) < 64 := by omega
        have := testBit_cell (k := j - 64 * (m + 1)) bs (m + 1) hk'
        rw [show 64 * (m + 1) + (j - 64 * (m + 1)) = j by omega] at this
        rw [← this, h, Nat.zero_testBit]
      have heq : rfindAux bs (m + 1) = rfindAux bs m := by simp [rfindAux, h]
      rcases ih with ⟨h1, h2⟩ | ⟨j, h1, h2, h3, h4⟩
      · left
        refine ⟨by rw [heq, h1], ?_⟩
        intro j hj
        by_cases hj' : j < 64 * (m + 1)
        · exact h2 j hj'
        · exact hcell j (by omega) hj
      · right
        refine ⟨j, by rw [heq, h1], h2, by omega, ?_⟩
        intro k hk1 hk2
        by_cases hk' : k < 64 * (m + 1)
        · exact h4 k hk1 hk'
        · exact hcell k (by omega) hk2

theorem rfind_cases (bs i : ℕ) :
    (rfind bs i = -1 ∧ ∀ j : ℕ, j < 64 * (i / 64 + 1) → bs.testBit j = false) ∨
    (∃ j : ℕ, rfind bs i = (j : ℤ) ∧ bs.testBit j = true ∧ j < 64 * (i / 64 + 1) ∧
      ∀ k : ℕ, j < k → k < 64 * (i / 64 + 1) → bs.testBit k = false) :=
  rfindAux_spec bs (i / 64)

theorem lt_cell_bound (c : ℕ) : c < 64 * (c / 64 + 1) := by
  have h1 := Nat.div_add_mod c 64
  have h2 := Nat.mod_lt c (show 0 < 64 by norm_num)
  omega

/-- Claim C4: for every Bitset state and every index i, rfind(i) returns
the largest set-bit index at or below ((i/W + 1)*W - 1) with W = 64, or
-1 when no bit at or below that bound is set. -/
theorem claim_C4 (bs i : ℕ) :
    (rfind bs i = -1 ∧ ∀ j : ℕ, j ≤ (i / 64 + 1) * 64 - 1 → bs.testBit j = false) ∨
    (∃ j : ℕ, rfind bs i = (j : ℤ) ∧ bs.testBit j = true ∧ j ≤ (i / 64 + 1) * 64 - 1 ∧
      ∀ k : ℕ, bs.testBit k = true → k ≤ (i / 64 + 1) * 64 - 1 → k ≤ j) := by
  rcases rfind_cases bs i with ⟨h1, h2⟩ | ⟨j, h1, h2, h3, h4⟩
  · exact Or.inl ⟨h1, fun j hj => h2 j (by omega)⟩
  · refine Or.inr ⟨j, h1, h2, by omega, ?_⟩
    intro k hk1 hk2
    by_contra hlt
    push_neg at hlt
    have := h4 k hlt (by omega)
    rw [hk1] at this
    simp at this

theorem claim_C4_witness :
    (rfind 5 0 = -1 ∧ ∀ j : ℕ, j ≤ (0 / 64 + 1) * 64 - 1 → Nat.testBit 5 j = false) ∨
    (∃ j : ℕ, rfind 5 0 = (j : ℤ) ∧ Nat.testBit 5 j = true ∧ j ≤ (0 / 64 + 1) * 64 - 1 ∧
      ∀ k : ℕ, Nat.testBit 5 k = true → k ≤ (0 / 64 + 1) * 64 - 1 → k ≤ j) :=
  claim_C4 5 0

/-- Claim C1: SmallAlloc::free and LargeAlloc::free at slot index
i = (p - base)/slot_size (slot size 16 bytes for SA, 4096 for LA) clear
bit i of bs, compute r = bs.rfind(cur_bit) on the cleared bitmap, set
cur_bit to i when 0 <= r < i and to 0 when r < 0, leave it unchanged
when r >= i, and return true exactly when cur_bit ends up 0.  The
hypothesis i < cur holds for every owned pointer inside the allocator:
its slot lies strictly below the bump cursor. -/
theorem claim_C1 (s : SubState) (i : ℕ) (hi : i < s.cur) :
    ((freeG s i).2.bs = bunset s.bs i) ∧
    ((freeG s i).2.xbs = s.xbs) ∧
    (rfind (bunset s.bs i) s.cur < (i : ℤ) →
      (freeG s i).2.cur = if 0 ≤ rfind (bunset s.bs i) s.cur then i else 0) ∧
    ((i : ℤ) ≤ rfind (bunset s.bs i) s.cur → (freeG s i).2.cur = s.cur) ∧
    ((freeG s i).1 = true ↔ (freeG s i).2.cur = 0) := by
  simp only [freeG]
  by_cases h : rfind (bunset s.bs i) s.cur < (i : ℤ)
  · rw [if_pos h]
    by_cases h0 : (0 : ℤ) ≤ rfind (bunset s.bs i) s.cur
    · have hi0 : i ≠ 0 := by
        intro h'
        subst h'
        omega
      rw [if_pos h0]
      refine ⟨rfl, rfl, fun _ => rfl, fun hc => absurd h (not_lt.2 hc), ?_⟩
      simp [hi0]
    · rw [if_neg h0]
      refine ⟨rfl, rfl, fun _ => rfl, fun hc => absurd h (not_lt.2 hc), ?_⟩
      simp
  · rw [if_neg h]
    push_neg at h
    refine ⟨rfl, rfl, fun hc => absurd hc (not_lt.2 h), fun _ => rfl, ?_⟩
    simp only [Bool.false_eq_true, false_iff]
    omega

theorem claim_C1_witness :
    0 < (1 : ℕ) ∧
    (((freeG ⟨1, 0, 1⟩ 0).2.bs = bunset 1 0) ∧
     ((freeG ⟨1, 0, 1⟩ 0).2.xbs = 0) ∧
     (rfind (bunset 1 0) 1 < ((0 : ℕ) : ℤ) →
       (freeG ⟨1, 0, 1⟩ 0).2.cur = if 0 ≤ rfind (bunset 1 0) 1 then 0 else 0) ∧
     (((0 : ℕ) : ℤ) ≤ rfind (bunset 1 0) 1 → (freeG ⟨1, 0, 1⟩ 0).2.cur = 1) ∧
     ((freeG ⟨1, 0, 1⟩ 0).1 = true ↔ (freeG ⟨1, 0, 1⟩ 0).2.cur = 0)) :=
  ⟨by decide, claim_C1 ⟨1, 0, 1⟩ 0 (by decide)⟩

/-- Claim C5: SmallAlloc::realloc and LargeAlloc::realloc with slot
index i = (p - base)/slot_size return p (offset i * slot_size) after
setting cur_bit = i + n exactly when cur_bit = i + o and
i + n <= MAX_bIT (2012 for SA, 511 for LA); in every other case they
return nil and leave the cursor and both bitmaps unchanged. -/
theorem claim_C5 (s : SubState) (i o n : ℕ) :
    ((SmallAlloc.realloc s i o n).2.bs = s.bs ∧
     (SmallAlloc.realloc s i o n).2.xbs = s.xbs ∧
     (s.cur = i + o ∧ i + n ≤ sa_MAX_bIT →
       SmallAlloc.realloc s i o n = (some (i <<< 4), ⟨s.bs, s.xbs, i + n⟩)) ∧
     (¬(s.cur = i + o ∧ i + n ≤ sa_MAX_bIT) →
       SmallAlloc.realloc s i o n = (none, s))) ∧
    ((LargeAlloc.realloc s i o n).2.bs = s.bs ∧
     (LargeAlloc.realloc s i o n).2.xbs = s.xbs ∧
     (s.cur = i + o ∧ i + n ≤ la_MAX_bIT →
       LargeAlloc.realloc s i o n = (some (i <<< 12), ⟨s.bs, s.xbs, i + n⟩)) ∧
     (¬(s.cur = i + o ∧ i + n ≤ la_MAX_bIT) →
       LargeAlloc.realloc s i o n = (none, s))) := by
  constructor
  · simp only [SmallAlloc.realloc, reallocG]
    by_cases h : s.cur = i + o ∧ i + n ≤ sa_MAX_bIT
    · rw [if_pos h]
      exact ⟨rfl, rfl, fun _ => rfl, fun hc => absurd h hc⟩
    · rw [if_neg h]
      exact ⟨rfl, rfl, fun hc => absurd hc h, fun _ => rfl⟩
  · simp only [LargeAlloc.realloc, reallocG]
    by_cases h : s.cur = i + o ∧ i + n ≤ la_MAX_bIT
    · rw [if_pos h]
      exact ⟨rfl, rfl, fun _ => rfl, fun hc => absurd h hc⟩
    · rw [if_neg h]
      exact ⟨rfl, rfl, fun hc => absurd hc h, fun _ => rfl⟩

theorem claim_C5_witness :
    ((SmallAlloc.realloc ⟨1, 0, 2⟩ 1 1 3).2.bs = 1 ∧
     (SmallAlloc.realloc ⟨1, 0, 2⟩ 1 1 3).2.xbs = 0 ∧
     ((2 : ℕ) = 1 + 1 ∧ 1 + 3 ≤ sa_MAX_bIT →
       SmallAlloc.realloc ⟨1, 0, 2⟩ 1 1 3 = (some (1 <<< 4), ⟨1, 0, 1 + 3⟩)) ∧
     (¬((2 : ℕ) = 1 + 1 ∧ 1 + 3 ≤ sa_MAX_bIT) →
       SmallAlloc.realloc ⟨1, 0, 2⟩ 1 1 3 = (none, ⟨1, 0, 2⟩))) ∧
    ((LargeAlloc.realloc ⟨1, 0, 2⟩ 1 1 3).2.bs = 1 ∧
     (LargeAlloc.realloc ⟨1, 0, 2⟩ 1 1 3).2.xbs = 0 ∧
     ((2 : ℕ) = 1 + 1 ∧ 1 + 3 ≤ la_MAX_bIT →
       LargeAlloc.realloc ⟨1, 0, 2⟩ 1 1 3 = (some (1 <<< 12), ⟨1, 0, 1 + 3⟩)) ∧
     (¬((2 : ℕ) = 1 + 1 ∧ 1 + 3 ≤ la_MAX_bIT) →
       LargeAlloc.realloc ⟨1, 0, 2⟩ 1 1 3 = (none, ⟨1, 0, 2⟩))) :=
  claim_C5 ⟨1, 0, 2⟩ 1 1 3

/-- Claim C7: HugeBlock::alloc (child unit 2^21 bytes on 64-bit) and
LargeBlock::alloc (child unit 2^15 bytes) compute the lowest clear bit i
of the 63-bit occupancy bitmap; when i < R = 63 they set bit i and
return the child base p + i * child_unit_size, otherwise they return nil
and leave the bitmap unchanged.  The hypothesis bits < 2^63 holds for
every block: only bits 0..62 are ever set. -/
theorem claim_C7 (bits : ℕ) (hb : bits < 2 ^ 63) :
    (bits.testBit (findLsb ((2 ^ 64 - 1) ^^^ bits)) = false ∧
     ∀ j : ℕ, j < findLsb ((2 ^ 64 - 1) ^^^ bits) → bits.testBit j = true) ∧
    (findLsb ((2 ^ 64 - 1) ^^^ bits) < 63 →
      hbAlloc bits = (some (findLsb ((2 ^ 64 - 1) ^^^ bits) <<< 21),
                      bset bits (findLsb ((2 ^ 64 - 1) ^^^ bits))) ∧
      lbAlloc bits = (some (findLsb ((2 ^ 64 - 1) ^^^ bits) <<< 15),
                      bset bits (findLsb ((2 ^ 64 - 1) ^^^ bits)))) ∧
    (63 ≤ findLsb ((2 ^ 64 - 1) ^^^ bits) →
      hbAlloc bits = (none, bits) ∧ lbAlloc bits = (none, bits)) := by
  have hblt : bits < 2 ^ 64 := lt_trans hb (by norm_num)
  have hcbit : ∀ j, j < 64 → ((2 ^ 64 - 1) ^^^ bits).testBit j = !bits.testBit j := by
    intro j hj
    rw [Nat.testBit_xor, Nat.testBit_two_pow_sub_one]
    simp [hj]
  have hc63 : ((2 ^ 64 - 1) ^^^ bits).testBit 63 = true := by
    rw [hcbit 63 (by norm_num)]
    simp [Nat.testBit_lt_two_pow hb]
  have hc0 : (2 ^ 64 - 1) ^^^ bits ≠ 0 := by
    intro h
    rw [h, Nat.zero_testBit] at hc63
    exact absurd hc63 (by simp)
  have hclt : (2 ^ 64 - 1) ^^^ bits < 2 ^ 64 :=
    Nat.xor_lt_two_pow (by norm_num) hblt
  obtain ⟨h1, h2⟩ := findLsb_spec hc0 hclt
  have hle : findLsb ((2 ^ 64 - 1) ^^^ bits) ≤ 63 := by
    by_contra hgt
    push_neg at hgt
    have := h2 63 (by omega)
    rw [hc63] at this
    simp at this
  refine ⟨⟨?_, ?_⟩, ?_, ?_⟩
  · have h3 := hcbit (findLsb ((2 ^ 64 - 1) ^^^ bits)) (by omega)
    rw [h1] at h3
    cases hbt : bits.testBit (findLsb ((2 ^ 64 - 1) ^^^ bits)) with
    | false => rfl
    | true => rw [hbt] at h3; simp at h3
  · intro j hj
    have hf := h2 j hj
    have h3 := hcbit j (by omega)
    rw [hf] at h3
    cases hbt : bits.testBit j with
    | false => rw [hbt] at h3; simp at h3
    | true => rfl
  · intro hlt
    constructor
    · simp only [hbAlloc, blockAlloc]
      rw [if_pos hlt]
    · simp only [lbAlloc, blockAlloc]
      rw [if_pos hlt]
  · intro hge
    have hnlt : ¬ findLsb ((2 ^ 64 - 1) ^^^ bits) < 63 := by omega
    constructor
    · simp only [hbAlloc, blockAlloc]
      rw [if_neg hnlt]
    · simp only [lbAlloc, blockAlloc]
      rw [if_neg hnlt]

theorem claim_C7_witness :
    (5 : ℕ) < 2 ^ 63 ∧
    (((5 : ℕ).testBit (findLsb ((2 ^ 64 - 1) ^^^ 5)) = false ∧
      ∀ j : ℕ, j < findLsb ((2 ^ 64 - 1) ^^^ 5) → (5 : ℕ).testBit j = true) ∧
     (findLsb ((2 ^ 64 - 1) ^^^ 5) < 63 →
       hbAlloc 5 = (some (findLsb ((2 ^ 64 - 1) ^^^ 5) <<< 21),
                    bset 5 (findLsb ((2 ^ 64 - 1) ^^^ 5))) ∧
       lbAlloc 5 = (some (findLsb ((2 ^ 64 - 1) ^^^ 5) <<< 15),
                    bset 5 (findLsb ((2 ^ 64 - 1) ^^^ 5)))) ∧
     (63 ≤ findLsb ((2 ^ 64 - 1) ^^^ 5) →
       hbAlloc 5 = (none, 5) ∧ lbAlloc 5 = (none, 5))) :=
  ⟨by norm_num, claim_C7 5 (by norm_num)⟩

theorem cell_clearMask_self (a k : ℕ) :
    cell (clearMask a (cell a k <<< (64 * k))) k = 0 := by
  apply Nat.eq_of_testBit_eq
  intro j
  rw [Nat.zero_testBit]
  by_cases hj : j < 64
  · rw [testBit_cell _ _ hj, testBit_clearMask, Nat.testBit_shiftLeft]
    rw [show 64 * k + j - 64 * k = j by omega, testBit_cell _ _ hj]
    have hge : 64 * k ≤ 64 * k + j := by omega
    simp only [ge_iff_le, hge]
    cases a.testBit (64 * k + j) <;> simp
  · exact testBit_cell_ge _ _ (by omega)

theorem thaCell_bitmaps {k : ℕ} {t : SubState} (hx : cell t.xbs k ≠ 0) :
    (thaCell k t).1.xbs = clearMask t.xbs (cell t.xbs k <<< (64 * k)) ∧
    (thaCell k t).1.bs = clearMask t.bs (cell t.xbs k <<< (64 * k)) := by
  simp only [thaCell]
  rw [if_neg hx]
  split
  · exact ⟨rfl, rfl⟩
  · exact ⟨rfl, rfl⟩

/-- Claim C3: try_hard_alloc(n) scans xbs cells from index cur_bit/W
down to 0 via the drain loop; each processed nonzero snapshot x is
cleared exactly (bit for bit) from the xbs cell and from bs, leaving the
xbs cell zero, with the cursor-rewind and stop conditions of the loop;
after the scan the inlined tail performs exactly a normal alloc(n) on
the drained state and its result is returned. -/
theorem claim_C3 (n : ℕ) (s : SubState) :
    SmallAlloc.try_hard_alloc n s = SmallAlloc.alloc n (thaLoop (s.cur / 64) s) ∧
    LargeAlloc.try_hard_alloc n s = LargeAlloc.alloc n (thaLoop (s.cur / 64) s) ∧
    (∀ k : ℕ, ∀ t : SubState, cell t.xbs k ≠ 0 →
      cell (thaCell k t).1.xbs k = 0 ∧
      ∀ j : ℕ,
        (thaCell k t).1.xbs.testBit j =
          (t.xbs.testBit j && !(cell t.xbs k <<< (64 * k)).testBit j) ∧
        (thaCell k t).1.bs.testBit j =
          (t.bs.testBit j && !(cell t.xbs k <<< (64 * k)).testBit j)) := by
  refine ⟨rfl, rfl, ?_⟩
  intro k t hx
  obtain ⟨hxbs, hbs⟩ := thaCell_bitmaps hx
  refine ⟨?_, ?_⟩
  · rw [hxbs]
    exact cell_clearMask_self t.xbs k
  · intro j
    rw [hxbs, hbs, testBit_clearMask, testBit_clearMask]
    exact ⟨rfl, rfl⟩

theorem claim_C3_witness :
    SmallAlloc.try_hard_alloc 1 ⟨0, 2, 0⟩ =
      SmallAlloc.alloc 1 (thaLoop ((0 : ℕ) / 64) ⟨0, 2, 0⟩) ∧
    LargeAlloc.try_hard_alloc 1 ⟨0, 2, 0⟩ =
      LargeAlloc.alloc 1 (thaLoop ((0 : ℕ) / 64) ⟨0, 2, 0⟩) ∧
    (∀ k : ℕ, ∀ t : SubState, cell t.xbs k ≠ 0 →
      cell (thaCell k t).1.xbs k = 0 ∧
      ∀ j : ℕ,
        (thaCell k t).1.xbs.testBit j =
          (t.xbs.testBit j && !(cell t.xbs k <<< (64 * k)).testBit j) ∧
        (thaCell k t).1.bs.testBit j =
          (t.bs.testBit j && !(cell t.xbs k <<< (64 * k)).testBit j)) :=
  claim_C3 1 ⟨0, 2, 0⟩

theorem rfind_of_bits_lt {bs c : ℕ} (h : ∀ j : ℕ, bs.testBit j = true → j < c) :
    (bs = 0 ∧ rfind bs c = -1) ∨
    (∃ j : ℕ, rfind bs c = (j : ℤ) ∧ bs.testBit j = true ∧
      ∀ k : ℕ, bs.testBit k = true → k ≤ j) := by
  rcases rfind_cases bs c with ⟨h1, h2⟩ | ⟨j, h1, h2, h3, h4⟩
  · left
    refine ⟨?_, h1⟩
    apply Nat.eq_of_testBit_eq
    intro j
    rw [Nat.zero_testBit]
    by_cases hj : bs.testBit j = true
    · exact h2 j (lt_trans (h j hj) (lt_cell_bound c))
    · simpa using hj
  · right
    refine ⟨j, h1, h2, ?_⟩
    intro k hk
    by_contra hgt
    push_neg at hgt
    have hkb : k < 64 * (c / 64 + 1) := lt_trans (h k hk) (lt_cell_bound c)
    have := h4 k hgt hkb
    rw [hk] at this
    simp at this

theorem subInv_mk (A B C : ℕ) :
    SubInv ⟨A, B, C⟩ ↔ ((∀ j : ℕ, A.testBit j = true → j < C) ∧ (A = 0 → C = 0)) :=
  Iff.rfl

theorem subInv_free {s : SubState} (hs : SubInv s) (i : ℕ) : SubInv (freeG s i).2 := by
  have hsub : ∀ j : ℕ, (bunset s.bs i).testBit j = true → j < s.cur := by
    intro j hj
    rw [testBit_bunset, Bool.and_eq_true] at hj
    exact hs.1 j hj.1
  have hrf := rfind_of_bits_lt hsub
  simp only [freeG]
  by_cases h : rfind (bunset s.bs i) s.cur < (i : ℤ)
  · rw [if_pos h]
    by_cases h0 : (0 : ℤ) ≤ rfind (bunset s.bs i) s.cur
    · rw [if_pos h0]
      dsimp only
      rw [subInv_mk]
      rcases hrf with ⟨hz, hneg⟩ | ⟨j0, hj0, hbit, hmax⟩
      · rw [hneg] at h0
        omega
      · constructor
        · intro j hj
          have hle : j ≤ j0 := hmax j hj
          rw [hj0] at h
          have : (j0 : ℤ) < (i : ℤ) := h
          omega
        · intro hz
          rw [hz, Nat.zero_testBit] at hbit
          simp at hbit
    · rw [if_neg h0]
      dsimp only
      rw [subInv_mk]
      rcases hrf with ⟨hz, hneg⟩ | ⟨j0, hj0, hbit, hmax⟩
      · constructor
        · intro j hj
          rw [hz, Nat.zero_testBit] at hj
          simp at hj
        · intro _
          rfl
      · rw [hj0] at h0
        have : (0 : ℤ) ≤ (j0 : ℤ) := Int.natCast_nonneg j0
        omega
  · rw [if_neg h]
    dsimp only
    rw [subInv_mk]
    constructor
    · intro j hj
      exact hsub j hj
    · intro hz
      rcases hrf with ⟨hz2, hneg⟩ | ⟨j0, hj0, hbit, hmax⟩
      · rw [hneg] at h
        push_neg at h
        have : (0 : ℤ) ≤ (i : ℤ) := Int.natCast_nonneg i
        omega
      · rw [hz, Nat.zero_testBit] at hbit
        simp at hbit

theorem subInv_alloc {s : SubState} (hs : SubInv s) {n : ℕ} (hn : 1 ≤ n)
    (shift maxBit : ℕ) : SubInv (allocG shift maxBit n s).2 := by
  simp only [allocG]
  by_cases h : s.cur + n ≤ maxBit
  · rw [if_pos h]
    dsimp only
    rw [subInv_mk]
    constructor
    · intro j hj
      rw [testBit_bset, Bool.or_eq_true] at hj
      rcases hj with hj | hj
      · have := hs.1 j hj
        omega
      · have : s.cur = j := of_decide_eq_true hj
        omega
    · intro hz
      have hbit : (bset s.bs s.cur).testBit s.cur = true := by
        rw [testBit_bset]
        simp
      rw [hz, Nat.zero_testBit] at hbit
      simp at hbit
  · rw [if_neg h]
    exact hs

theorem subInv_realloc {s : SubState} (hs : SubInv s) {i o n : ℕ}
    (hi : s.bs.testBit i = true) (hon : o < n) (shift maxBit : ℕ) :
    SubInv (reallocG shift maxBit s i o n).2 := by
  simp only [reallocG]
  by_cases h : s.cur = i + o ∧ i + n ≤ maxBit
  · rw [if_pos h]
    dsimp only
    rw [subInv_mk]
    constructor
    · intro j hj
      have h1 := hs.1 j hj
      have h2 := h.1
      omega
    · intro hz
      rw [hz, Nat.zero_testBit] at hi
      simp at hi
  · rw [if_neg h]
    exact hs

theorem subInv_thaCell {s : SubState} (hs : SubInv s) (k : ℕ) :
    SubInv (thaCell k s).1 := by
  simp only [thaCell]
  by_cases hx : cell s.xbs k = 0
  · rw [if_pos hx]
    exact hs
  · rw [if_neg hx]
    dsimp only
    have hsub : ∀ j : ℕ,
        (clearMask s.bs (cell s.xbs k <<< (64 * k))).testBit j = true → j < s.cur := by
      intro j hj
      rw [testBit_clearMask, Bool.and_eq_true] at hj
      exact hs.1 j hj.1
    have hrf := rfind_of_bits_lt hsub
    by_cases hbr : ((findLsb (cell s.xbs k) + 64 * k : ℕ) : ℤ) ≤
        rfind (clearMask s.bs (cell s.xbs k <<< (64 * k))) s.cur
    · rw [if_pos hbr]
      dsimp only
      rw [subInv_mk]
      constructor
      · intro j hj
        exact hsub j hj
      · intro hz
        rcases hrf with ⟨_, hneg⟩ | ⟨j0, _, hbit, _⟩
        · rw [hneg] at hbr
          omega
        · rw [hz, Nat.zero_testBit] at hbit
          simp at hbit
    · rw [if_neg hbr]
      dsimp only
      rw [subInv_mk]
      by_cases h0 : (0 : ℤ) ≤ rfind (clearMask s.bs (cell s.xbs k <<< (64 * k))) s.cur
      · rw [if_pos h0]
        rcases hrf with ⟨_, hneg⟩ | ⟨j0, hj0, hbit, hmax⟩
        · rw [hneg] at h0
          omega
        · constructor
          · intro j hj
            have hle : j ≤ j0 := hmax j hj
            rw [hj0] at hbr
            push_neg at hbr
            omega
          · intro hz
            rw [hz, Nat.zero_testBit] at hbit
            simp at hbit
      · rw [if_neg h0]
        rcases hrf with ⟨hz, _⟩ | ⟨j0, hj0, hbit, _⟩
        · constructor
          · intro j hj
            rw [hz, Nat.zero_testBit] at hj
            simp at hj
          · intro _
            rfl
        · rw [hj0] at h0
          have := Int.natCast_nonneg j0
          omega

theorem subInv_thaLoop : ∀ (k : ℕ) (s : SubState), SubInv s → SubInv (thaLoop k s) := by
  intro k
  induction k with
  | zero =>
    intro s hs
    exact subInv_thaCell hs 0
  | succ k ih =>
    intro s hs
    simp only [thaLoop]
    by_cases ht : (thaCell (k + 1) s).2 = true
    · rw [if_pos ht]
      exact subInv_thaCell hs (k + 1)
    · rw [if_neg ht]
      exact ih _ (subInv_thaCell hs (k + 1))

theorem subInv_tryHard {s : SubState} (hs : SubInv s) {n : ℕ} (hn : 1 ≤ n)
    (shift maxBit : ℕ) : SubInv (tryHardAllocG shift maxBit n s).2 :=
  subInv_alloc (subInv_thaLoop (s.cur / 64) s hs) hn shift maxBit

/-- Claim C2, amended: after every completed alloc, try_hard_alloc,
free, xfree and realloc operation, cur_bit is a strict upper bound on
the set bits of bs (every set bit lies below the cursor) and cur_bit is
0 whenever bs has no set bit.  It need not equal one past the highest
set bit: multi-unit allocations and cursor rewinds to the freed index
leave gaps. -/
theorem claim_C2 (shift maxBit : ℕ) (s : SubState) (h : Reach shift maxBit s) :
    SubInv s := by
  induction h with
  | init =>
    constructor
    · intro j hj
      simp only [initSub] at hj
      rw [Nat.zero_testBit] at hj
      simp at hj
    · intro _
      rfl
  | alloc s n h hn ih => exact subInv_alloc ih hn shift maxBit
  | tryHard s n h hn ih => exact subInv_tryHard ih hn shift maxBit
  | free s i h hi ih => exact subInv_free ih i
  | xfree s i h ih => exact ih
  | realloc s i o n h hi hon ih => exact subInv_realloc ih hi hon shift maxBit

theorem claim_C2_witness :
    Reach 4 sa_MAX_bIT initSub ∧ SubInv initSub :=
  ⟨Reach.init, claim_C2 4 sa_MAX_bIT initSub Reach.init⟩

/-- Claim C2 as stated is false on the code: from a fresh SmallAlloc, a
single completed alloc of 2 units (a 32-byte object) reaches the state
bs = 1 (only bit 0 set), cur_bit = 2, where cur_bit is two past the
highest set bit, not one. -/
theorem claim_C2_counterexample :
    Reach 4 sa_MAX_bIT ⟨1, 0, 2⟩ ∧ ¬ OnePastHighest ⟨1, 0, 2⟩ := by
  constructor
  · have h : (allocG 4 sa_MAX_bIT 2 initSub).2 = ⟨1, 0, 2⟩ := by decide
    exact h ▸ Reach.alloc initSub 2 Reach.init (by norm_num)
  · intro h
    rcases h with ⟨hz, _⟩ | ⟨hh, hbit, _, hcur⟩
    · exact absurd hz (by decide)
    · have hcur' : 2 = hh + 1 := hcur
      have hh1 : hh = 1 := by omega
      rw [hh1] at hbit
      exact absurd hbit (by decide)

theorem getD_of_lt {l : List ℕ} {n : ℕ} (h : n < l.length) : l.getD n 0 = l[n] := by
  rw [List.getD_eq_getElem?_getD, List.getElem?_eq_getElem h]
  rfl

theorem allocMany_spec (shift maxBit : ℕ) : ∀ (us : List ℕ) (s : SubState) (ps : List ℕ)
    (s' : SubState), allocMany shift maxBit s us = some (ps, s') →
    ps.length = us.length ∧
    ∀ k : ℕ, k < us.length → ps.getD k 0 = (s.cur + (us.take k).sum) <<< shift := by
  intro us
  induction us with
  | nil =>
    intro s ps s' h
    simp only [allocMany, Option.some.injEq, Prod.mk.injEq] at h
    obtain ⟨h1, _⟩ := h
    subst h1
    exact ⟨rfl, fun k hk => by simp at hk⟩
  | cons u us ih =>
    intro s ps s' h
    simp only [allocMany] at h
    split at h
    · rename_i p s1 heq
      split at h
      · rename_i ps2 s2 hM
        simp only [Option.some.injEq, Prod.mk.injEq] at h
        obtain ⟨hps, _⟩ := h
        have hcur : p = s.cur <<< shift ∧ s1.cur = s.cur + u := by
          simp only [allocG] at heq
          by_cases hc : s.cur + u ≤ maxBit
          · rw [if_pos hc] at heq
            have h1 := congrArg Prod.fst heq
            have h2 := congrArg Prod.snd heq
            simp only [Option.some.injEq] at h1 h2
            refine ⟨h1.symm, ?_⟩
            rw [← h2]
          · rw [if_neg hc] at heq
            have h1 := congrArg Prod.fst heq
            simp at h1
        obtain ⟨ih1, ih2⟩ := ih s1 ps2 s2 hM
        subst hps
        refine ⟨by simp [ih1], ?_⟩
        intro k hk
        cases k with
        | zero => simpa using hcur.1
        | succ k =>
          simp only [List.getD_cons_succ, List.take_succ_cons, List.sum_cons]
          rw [ih2 k (by simpa using hk), hcur.2]
          congr 1
          omega
      · simp at h
    · simp at h

theorem allocMany_mono (shift maxBit : ℕ) (us : List ℕ) (s : SubState) (ps : List ℕ)
    (s' : SubState) (hpos : ∀ u ∈ us, 1 ≤ u)
    (h : allocMany shift maxBit s us = some (ps, s')) :
    ps.length = us.length ∧
    (∀ k : ℕ, k + 1 < ps.length →
      ps.getD (k + 1) 0 = ps.getD k 0 + us.getD k 0 * 2 ^ shift) ∧
    ps.Chain' (· < ·) := by
  obtain ⟨hlen, hform⟩ := allocMany_spec shift maxBit us s ps s' h
  have hadj : ∀ k : ℕ, k + 1 < ps.length →
      ps.getD (k + 1) 0 = ps.getD k 0 + us.getD k 0 * 2 ^ shift := by
    intro k hk
    have hk1 : k + 1 < us.length := by omega
    have hk0 : k < us.length := by omega
    rw [hform (k + 1) hk1, hform k hk0]
    rw [List.sum_take_succ us k hk0]
    rw [getD_of_lt hk0]
    simp only [Nat.shiftLeft_eq]
    ring
  refine ⟨hlen, hadj, ?_⟩
  rw [List.chain'_iff_get]
  intro i hi
  have hi' : i + 1 < ps.length := by omega
  have h1 : ps.get ⟨i, by omega⟩ = ps.getD i 0 := by
    rw [getD_of_lt (show i < ps.length by omega)]
    exact List.get_eq_getElem ..
  have h2 : ps.get ⟨i + 1, by omega⟩ = ps.getD (i + 1) 0 := by
    rw [getD_of_lt (show i + 1 < ps.length by omega)]
    exact List.get_eq_getElem ..
  rw [h1, h2, hadj i hi']
  have hmem : us.getD i 0 ∈ us := by
    rw [getD_of_lt (by omega : i < us.length)]
    exact List.getElem_mem _
  have hu := hpos _ hmem
  have hp : 0 < 2 ^ shift := Nat.two_pow_pos shift
  have : 0 < us.getD i 0 * 2 ^ shift := Nat.mul_pos hu hp
  omega

/-- Claim C9: within one SmallAlloc or LargeAlloc, a sequence of
successful alloc calls with positive unit counts u_1, u_2, ... by the
owner with no intervening free, drain or realloc returns offsets with
p_(k+1) = p_k + u_k * slot_size (16 bytes for SA, 4096 for LA), hence
strictly increasing. -/
theorem claim_C9 (us : List ℕ) (s : SubState) (ps : List ℕ) (s' : SubState)
    (hpos : ∀ u ∈ us, 1 ≤ u) :
    (allocMany 4 sa_MAX_bIT s us = some (ps, s') →
      ps.length = us.length ∧
      (∀ k : ℕ, k + 1 < ps.length →
        ps.getD (k + 1) 0 = ps.getD k 0 + us.getD k 0 * 16) ∧
      ps.Chain' (· < ·)) ∧
    (allocMany 12 la_MAX_bIT s us = some (ps, s') →
      ps.length = us.length ∧
      (∀ k : ℕ, k + 1 < ps.length →
        ps.getD (k + 1) 0 = ps.getD k 0 + us.getD k 0 * 4096) ∧
      ps.Chain' (· < ·)) := by
  constructor
  · intro h
    have := allocMany_mono 4 sa_MAX_bIT us s ps s' hpos h
    simpa using this
  · intro h
    have := allocMany_mono 12 la_MAX_bIT us s ps s' hpos h
    simpa using this

theorem claim_C9_witness :
    (∀ u ∈ ([1, 2] : List ℕ), 1 ≤ u) ∧
    (([0, 16] : List ℕ).length = ([1, 2] : List ℕ).length ∧
     (∀ k : ℕ, k + 1 < ([0, 16] : List ℕ).length →
       ([0, 16] : List ℕ).getD (k + 1) 0 =
         ([0, 16] : List ℕ).getD k 0 + ([1, 2] : List ℕ).getD k 0 * 16) ∧
     ([0, 16] : List ℕ).Chain' (· < ·)) := by
  refine ⟨by decide, ?_⟩
  exact (claim_C9 [1, 2] initSub [0, 16] ⟨3, 0, 3⟩ (by decide)).1 (by decide)

theorem lookupBits_map_update (shard : List (ℕ × ℕ)) (hb b : ℕ)
    (hmem : hb ∈ shard.map Prod.fst) :
    lookupBits (shard.map (fun e => if e.1 = hb then (hb, b) else e)) hb = b := by
  induction shard with
  | nil => simp at hmem
  | cons e rest ih =>
    by_cases he : e.1 = hb
    · simp [lookupBits, List.find?_cons, if_pos he]
    · have hmem' : hb ∈ rest.map Prod.fst := by
        simp only [List.map_cons, List.mem_cons] at hmem
        rcases hmem with h | h
        · exact absurd h.symm he
        · exact h
      have hpred : ((if e.1 = hb then (hb, b) else e).1 == hb) = false := by
        rw [if_neg he]
        simp [he]
      simp only [List.map_cons, lookupBits, List.find?_cons, hpred]
      exact ih hmem'

theorem map_fst_update (shard : List (ℕ × ℕ)) (hb b : ℕ) :
    (shard.map (fun e => if e.1 = hb then (hb, b) else e)).map Prod.fst =
      shard.map Prod.fst := by
  rw [List.map_map]
  apply List.map_congr_left
  intro e _
  by_cases he : e.1 = hb
  · simp [he]
  · simp [he]

theorem not_mem_filter_fst (shard : List (ℕ × ℕ)) (hb : ℕ) :
    hb ∉ (shard.filter (fun e => e.1 != hb)).map Prod.fst := by
  intro h
  simp only [List.mem_map, List.mem_filter, bne_iff_ne] at h
  obtain ⟨e, ⟨_, hne⟩, hfst⟩ := h
  exact hne hfst

theorem globalFree_eq (shard : List (ℕ × ℕ)) (hb i : ℕ) :
    GlobalAlloc.free shard hb i =
      if bunset (lookupBits shard hb) i = 0 ∧ ¬ shard.head?.map Prod.fst = some hb
      then ⟨shard.filter (fun e => e.1 != hb), true, true⟩
      else ⟨shard.map (fun e => if e.1 = hb then (hb, bunset (lookupBits shard hb) i) else e),
            true, false⟩ := by
  simp only [GlobalAlloc.free]
  by_cases hc : bunset (lookupBits shard hb) i = 0 ∧ ¬ shard.head?.map Prod.fst = some hb
  · have hr : (decide (bunset (lookupBits shard hb) i = 0) &&
        !decide (shard.head?.map Prod.fst = some hb)) = true := by
      simp [hc.1, hc.2]
    rw [if_pos hc, if_pos hr, hr]
  · have hrn : ¬ ((decide (bunset (lookupBits shard hb) i = 0) &&
        !decide (shard.head?.map Prod.fst = some hb)) = true) := by
      intro h
      apply hc
      simpa using h
    have hrf : (decide (bunset (lookupBits shard hb) i = 0) &&
        !decide (shard.head?.map Prod.fst = some hb)) = false := by
      cases hxv : (decide (bunset (lookupBits shard hb) i = 0) &&
          !decide (shard.head?.map Prod.fst = some hb)) with
      | false => rfl
      | true => exact absurd hxv hrn
    rw [if_neg hc, if_neg hrn, hrf]

/-- Claim C6: GlobalAlloc::free(p, hb, alloc_id) decommits the Large
unit, clears the unit's bit in hb's occupancy bitmap under the shard
mutex, and erases hb from the shard list releasing its whole reserved
range exactly when the bitmap became zero and hb is not the shard head;
a head hb is retained (with the cleared bitmap) even when empty. -/
theorem claim_C6 (shard : List (ℕ × ℕ)) (hb i : ℕ)
    (hmem : hb ∈ shard.map Prod.fst) :
    (GlobalAlloc.free shard hb i).decommitted = true ∧
    ((GlobalAlloc.free shard hb i).released = true ↔
      bunset (lookupBits shard hb) i = 0 ∧ ¬ shard.head?.map Prod.fst = some hb) ∧
    ((GlobalAlloc.free shard hb i).released = true →
      hb ∉ (GlobalAlloc.free shard hb i).shard.map Prod.fst) ∧
    ((GlobalAlloc.free shard hb i).released = false →
      hb ∈ (GlobalAlloc.free shard hb i).shard.map Prod.fst ∧
      lookupBits (GlobalAlloc.free shard hb i).shard hb =
        bunset (lookupBits shard hb) i) ∧
    (shard.head?.map Prod.fst = some hb →
      hb ∈ (GlobalAlloc.free shard hb i).shard.map Prod.fst) := by
  rw [globalFree_eq]
  by_cases hc : bunset (lookupBits shard hb) i = 0 ∧ ¬ shard.head?.map Prod.fst = some hb
  · rw [if_pos hc]
    dsimp only
    refine ⟨rfl, by simp [hc.1, hc.2], ?_, ?_, ?_⟩
    · intro _
      exact not_mem_filter_fst shard hb
    · intro h
      simp at h
    · intro hhead
      exact absurd hhead hc.2
  · rw [if_neg hc]
    dsimp only
    refine ⟨rfl, by simpa using hc, ?_, ?_, ?_⟩
    · intro h
      simp at h
    · intro _
      refine ⟨?_, lookupBits_map_update shard hb _ hmem⟩
      rw [map_fst_update]
      exact hmem
    · intro _
      rw [map_fst_update]
      exact hmem

theorem claim_C6_witness :
    (2 ∈ ([(1, 3), (2, 8)] : List (ℕ × ℕ)).map Prod.fst) ∧
    ((GlobalAlloc.free [(1, 3), (2, 8)] 2 3).decommitted = true ∧
     ((GlobalAlloc.free [(1, 3), (2, 8)] 2 3).released = true ↔
       bunset (lookupBits [(1, 3), (2, 8)] 2) 3 = 0 ∧
       ¬ ([(1, 3), (2, 8)] : List (ℕ × ℕ)).head?.map Prod.fst = some 2) ∧
     ((GlobalAlloc.free [(1, 3), (2, 8)] 2 3).released = true →
       2 ∉ (GlobalAlloc.free [(1, 3), (2, 8)] 2 3).shard.map Prod.fst) ∧
     ((GlobalAlloc.free [(1, 3), (2, 8)] 2 3).released = false →
       2 ∈ (GlobalAlloc.free [(1, 3), (2, 8)] 2 3).shard.map Prod.fst ∧
       lookupBits (GlobalAlloc.free [(1, 3), (2, 8)] 2 3).shard 2 =
         bunset (lookupBits [(1, 3), (2, 8)] 2) 3) ∧
     (([(1, 3), (2, 8)] : List (ℕ × ℕ)).head?.map Prod.fst = some 2 →
       2 ∈ (GlobalAlloc.free [(1, 3), (2, 8)] 2 3).shard.map Prod.fst)) :=
  ⟨by decide, claim_C6 [(1, 3), (2, 8)] 2 3 (by decide)⟩

/-- Claim C8: a free(p, n) with n <= 128 KiB issued by a thread that is
not the owner recorded in the SmallAlloc/LargeAlloc header recovered
from p changes nothing but the atomic set of bit (p - base)/slot_size in
that sub-allocator's xbs: bs, cur_bit, the thread lists, the parent
block bitmap and the GlobalAlloc shard are untouched and no mutex is
acquired (the acquisition count is unchanged). -/
theorem claim_C8 (self i : ℕ) :
    (∀ w : SmallWorld, w.owner ≠ self →
      threadFreeSmall self i w = { w with sa := ⟨w.sa.bs, bset w.sa.xbs i, w.sa.cur⟩ }) ∧
    (∀ w : LargeWorld, w.owner ≠ self →
      threadFreeLarge self i w = { w with la := ⟨w.la.bs, bset w.la.xbs i, w.la.cur⟩ }) := by
  constructor
  · intro w h
    simp only [threadFreeSmall]
    rw [if_neg h]
    rfl
  · intro w h
    simp only [threadFreeLarge]
    rw [if_neg h]
    rfl

theorem claim_C8_witness :
    ((⟨1, ⟨1, 0, 1⟩, 0, true, [0], 1, 0, true, [0], 0, [(0, 1)], 0, 0, 0⟩ :
        SmallWorld).owner ≠ 0) ∧
    threadFreeSmall 0 5 ⟨1, ⟨1, 0, 1⟩, 0, true, [0], 1, 0, true, [0], 0, [(0, 1)], 0, 0, 0⟩ =
      ⟨1, ⟨1, bset 0 5, 1⟩, 0, true, [0], 1, 0, true, [0], 0, [(0, 1)], 0, 0, 0⟩ ∧
    threadFreeLarge 0 5 ⟨1, ⟨1, 0, 1⟩, 0, true, [0], [(0, 1)], 0, 0, 0⟩ =
      ⟨1, ⟨1, bset 0 5, 1⟩, 0, true, [0], [(0, 1)], 0, 0, 0⟩ := by
  refine ⟨by decide, ?_, ?_⟩
  · exact (claim_C8 0 5).1 _ (by decide)
  · exact (claim_C8 0 5).2 _ (by decide)

theorem allocG4_fst {maxBit u : ℕ} {s : SubState} {p : ℕ}
    (h : (allocG 4 maxBit u s).1 = some p) : p % 16 = 0 := by
  simp only [allocG] at h
  by_cases hc : s.cur + u ≤ maxBit
  · rw [if_pos hc] at h
    simp only [Option.some.injEq] at h
    rw [← h, Nat.shiftLeft_eq]
    omega
  · rw [if_neg hc] at h
    simp at h

theorem tryHard4_fst {maxBit u : ℕ} {s : SubState} {p : ℕ}
    (h : (tryHardAllocG 4 maxBit u s).1 = some p) : p % 16 = 0 := by
  simp only [tryHardAllocG] at h
  by_cases hc : (thaLoop (s.cur / 64) s).cur + u ≤ maxBit
  · rw [if_pos hc] at h
    simp only [Option.some.injEq] at h
    rw [← h, Nat.shiftLeft_eq]
    omega
  · rw [if_neg hc] at h
    simp at h

theorem tryScanM_some {α β : Type} (f : α → Option β × α) :
    ∀ (l : List α) (m : ℕ) (b : β) (j : ℕ) (l' : List α),
      tryScanM f m l = (some (b, j), l') → ∃ a, (f a).1 = some b := by
  intro l
  induction l with
  | nil =>
    intro m b j l' h
    cases m <;> simp [tryScanM] at h
  | cons a rest ih =>
    intro m b j l' h
    cases m with
    | zero => simp [tryScanM] at h
    | succ m =>
      simp only [tryScanM] at h
      split at h
      · rename_i b' a' heq
        simp only [Prod.mk.injEq, Option.some.injEq] at h
        obtain ⟨⟨hb, _⟩, _⟩ := h
        exact ⟨a, by rw [heq, hb]⟩
      · rename_i a' heq
        split at h
        · rename_i b2 j2 rest2 heq2
          simp only [Prod.mk.injEq, Option.some.injEq] at h
          obtain ⟨⟨hb, _⟩, _⟩ := h
          obtain ⟨a2, ha2⟩ := ih m b2 j2 rest2 heq2
          exact ⟨a2, by rw [ha2, hb]⟩
        · simp at h

theorem newLB_some_mod (u : ℕ) (w : AWorld) (p : ℕ) (w' : AWorld)
    (h : threadAllocSmallNewLB u w = (some p, w')) : p % 16 = 0 := by
  simp only [threadAllocSmallNewLB] at h
  by_cases hg : (gallocAlloc w.shard w.vmOk).1 = true
  · rw [if_pos hg] at h
    split at h
    · have := congrArg Prod.fst h
      exact allocG4_fst this
    · simp at h
  · rw [if_neg hg] at h
    simp at h

theorem lbScan_some_mod (u : ℕ) (w : AWorld) (p : ℕ) (w' : AWorld)
    (h : threadAllocSmallLBScan u w = (some p, w')) : p % 16 = 0 := by
  simp only [threadAllocSmallLBScan] at h
  split at h
  · rename_i b b2 rest
    split at h
    · have := congrArg Prod.fst h
      exact allocG4_fst this
    · exact newLB_some_mod u _ p w' h
  · exact newLB_some_mod u _ p w' h

theorem lbStep_some_mod (u : ℕ) (w : AWorld) (p : ℕ) (w' : AWorld)
    (h : threadAllocSmallLB u w = (some p, w')) : p % 16 = 0 := by
  simp only [threadAllocSmallLB] at h
  split at h
  · rename_i b rest
    split at h
    · have := congrArg Prod.fst h
      exact allocG4_fst this
    · exact lbScan_some_mod u _ p w' h
  · exact lbScan_some_mod u _ p w' h

theorem saScan_some_mod (u : ℕ) (w : AWorld) (p : ℕ) (w' : AWorld)
    (h : threadAllocSmallScan u w = (some p, w')) : p % 16 = 0 := by
  simp only [threadAllocSmallScan] at h
  split at h
  · rename_i s s2 rest
    split at h
    · rename_i q j t' heq
      have hfst := congrArg Prod.fst h
      simp only [Option.some.injEq] at hfst
      obtain ⟨a, ha⟩ := tryScanM_some _ _ _ _ _ _ heq
      rw [hfst] at ha
      exact tryHard4_fst ha
    · exact lbStep_some_mod u _ p w' h
  · exact lbStep_some_mod u _ p w' h

theorem threadAllocSmall_some_mod (u : ℕ) (w : AWorld) (p : ℕ) (w' : AWorld)
    (h : threadAllocSmall u w = (some p, w')) : p % 16 = 0 := by
  simp only [threadAllocSmall] at h
  split at h
  · split at h
    · rename_i p1 s1 heq
      have hfst := congrArg Prod.fst h
      simp only [Option.some.injEq] at hfst
      rw [← hfst]
      exact allocG4_fst (congrArg Prod.fst heq)
    · exact saScan_some_mod u _ p w' h
  · exact saScan_some_mod u _ p w' h

/-- Claim C10: at the public interface, alloc(n) for every n <= 16,
n = 0 included, requests exactly one 16-byte unit from the small tier
(the unit count is 1, the same as for alloc(16)), so a zero-size request
is never rejected, the whole small-tier path behaves exactly as for
alloc(16), any returned pointer is 16-byte aligned, and a one-unit
success consumes exactly one 16-byte slot (the cursor advances by 1). -/
theorem claim_C10 (n : ℕ) (hn : n ≤ 16) :
    unitsSmall n = 1 ∧
    unitsSmall n = unitsSmall 16 ∧
    (∀ w : AWorld, threadAllocSmallBytes n w = threadAllocSmallBytes 16 w) ∧
    (∀ (w : AWorld) (p : ℕ) (w' : AWorld),
      threadAllocSmallBytes n w = (some p, w') → p % 16 = 0) ∧
    (∀ (s : SubState) (p : ℕ) (s' : SubState),
      allocG 4 sa_MAX_bIT 1 s = (some p, s') → s'.cur = s.cur + 1) := by
  have h1 : unitsSmall n = 1 := by
    simp only [unitsSmall]
    rw [if_neg (by omega)]
  have h16 : unitsSmall 16 = 1 := by simp [unitsSmall]
  refine ⟨h1, by rw [h1, h16], ?_, ?_, ?_⟩
  · intro w
    simp only [threadAllocSmallBytes]
    rw [h1, h16]
  · intro w p w' h
    exact threadAllocSmall_some_mod _ w p w' h
  · intro s p s' h
    simp only [allocG] at h
    by_cases hc : s.cur + 1 ≤ sa_MAX_bIT
    · rw [if_pos hc] at h
      have h2 := congrArg Prod.snd h
      dsimp only at h2
      rw [← h2]
    · rw [if_neg hc] at h
      have h2 := congrArg Prod.fst h
      simp at h2

theorem claim_C10_witness :
    (0 : ℕ) ≤ 16 ∧
    (unitsSmall 0 = 1 ∧
     unitsSmall 0 = unitsSmall 16 ∧
     (∀ w : AWorld, threadAllocSmallBytes 0 w = threadAllocSmallBytes 16 w) ∧
     (∀ (w : AWorld) (p : ℕ) (w' : AWorld),
       threadAllocSmallBytes 0 w = (some p, w') → p % 16 = 0) ∧
     (∀ (s : SubState) (p : ℕ) (s' : SubState),
       allocG 4 sa_MAX_bIT 1 s = (some p, s') → s'.cur = s.cur + 1)) :=
  ⟨by decide, claim_C10 0 (by decide)⟩
